import Mathlib

/-!
Verification of the document-registry and ingestion-pipeline core of
`lazyllm/tools/rag/utils.py` (classes `DocListManager` /
`SqliteDocListManager` and the functions `_save_file_to_cache`,
`save_files_in_threads`).

The sqlite tables are embedded as Lean lists of row structures; each SQL
statement of the source becomes the corresponding list transformation.
The `sha256`-based `doc_id` derivation is kept abstract: every operation
takes the hash as an explicit function argument `docId`, so the theorems
hold for any deterministic hash.  Query strings built by concatenation
are embedded as small query structures together with an execution
function giving the sqlite semantics of the assembled string (checked
against sqlite for the corner case where a clause is appended with ` AND`
but no ` WHERE` was added: the conjunct then extends the join's `ON`
condition, which filters an inner join exactly like a `WHERE` clause).
-/

namespace LazyLLM

/-- A row of the `documents` table:
`documents(doc_id PK, filename, path, metadata, status, count)`. -/
structure DocRow where
  doc_id : String
  filename : String
  path : String
  metadata : String
  status : String
  count : Nat
  deriving Repr, DecidableEq

/-- A row of the `kb_group_documents` table:
`kb_group_documents(id PK AUTOINCREMENT, doc_id, group_name,
classification, status, log)`.  Note that the autoincrement `id` is the
table's only uniqueness constraint; there is no UNIQUE over
`(doc_id, group_name)`. -/
structure KbRow where
  id : Nat
  doc_id : String
  group_name : String
  classification : Option String
  status : String
  log : Option String
  deriving Repr, DecidableEq

/-- The backing store of `SqliteDocListManager`: the three tables plus the
autoincrement counter of `kb_group_documents`. -/
structure DB where
  documents : List DocRow
  document_groups : List String
  kb_group_documents : List KbRow
  next_kb_id : Nat
  deriving Repr, DecidableEq

/-- The empty store right after `_init_tables`. -/
def DB.empty : DB := ⟨[], [], [], 1⟩

/-- Status vocabulary (`DocListManager.Status`). -/
def Status.all : String := "all"

/-- Status value given to fresh rows (`DocListManager.Status.waiting`). -/
def Status.waiting : String := "waiting"

/-- Embedding of `INSERT OR IGNORE INTO documents ...`: `doc_id` is the PRIMARY KEY, so
the insert is skipped exactly when a row with the same `doc_id` exists. -/
def insertOrIgnoreDoc (db : DB) (row : DocRow) : DB :=
  if db.documents.any (fun r => r.doc_id = row.doc_id) then db
  else { db with documents := db.documents ++ [row] }

/-- Splitting a character list at every occurrence of a separator
character, keeping empty segments (the behaviour of Python's
`str.split(sep)` and of `String.splitOn` for one-character
separators). -/
def splitOnChar (c : Char) : List Char → List (List Char)
  | [] => [[]]
  | x :: xs =>
    let r := splitOnChar c xs
    if x = c then [] :: r
    else match r with
      | [] => [[x]]
      | h :: t => (x :: h) :: t

/-- Model of `os.path.basename` on posix paths: the component after the last
slash. -/
def basename (p : String) : String :=
  String.mk ((splitOnChar '/' p.toList).getLastD [])

/-- Embedding of `SqliteDocListManager.add_files`: for each path, compute the hash id,
take the matching metadata entry (empty string when no metadata list is
given) and insert-or-ignore a row with count 1 and the given status
(defaulting to `waiting`).  A metadata list shorter than the file list
raises `IndexError` in the source; the embedding totalizes that lookup
with a default, which no claim here exercises. -/
def add_files (docId : String → String) (db : DB) (files : List String)
    (metadatas : Option (List String)) (status : Option String) : DB :=
  (files.enum).foldl
    (fun db (fp : Nat × String) =>
      let metadata := match metadatas with
        | some ms => ms.getD fp.1 ""
        | none => ""
      insertOrIgnoreDoc db
        ⟨docId fp.2, basename fp.2, fp.2, metadata, status.getD Status.waiting, 1⟩)
    db

/-- Embedding of `SqliteDocListManager.add_files_to_kb_group`: for each path the source
runs `INSERT OR IGNORE INTO kb_group_documents (doc_id, group_name,
status) VALUES (?, ?, 'waiting')`.  The table's only uniqueness
constraint is the autoincrement primary key, which a fresh insert always
satisfies, so the `OR IGNORE` clause never fires and every call appends a
row unconditionally. -/
def add_files_to_kb_group (docId : String → String) (db : DB)
    (files : List String) (group : String) : DB :=
  files.foldl
    (fun db fp =>
      { db with
        kb_group_documents := db.kb_group_documents ++
          [⟨db.next_kb_id, docId fp, group, none, Status.waiting, none⟩],
        next_kb_id := db.next_kb_id + 1 })
    db

/-- Embedding of `SqliteDocListManager.delete_files`: one `DELETE FROM documents WHERE
doc_id = ?` per path. -/
def delete_files (docId : String → String) (db : DB)
    (files : List String) : DB :=
  files.foldl
    (fun db fp =>
      { db with documents := db.documents.filter (fun r => r.doc_id ≠ docId fp) })
    db

/-- Embedding of `SqliteDocListManager.get_file_status`: `SELECT status FROM documents
WHERE doc_id = ?` followed by `fetchone()`, which yields the first
matching row or `None`. -/
def get_file_status (db : DB) (fileid : String) : Option String :=
  (db.documents.find? (fun r => r.doc_id = fileid)).map (fun r => r.status)

/-- The `LIMIT` clause of `list_files` / `list_kb_group_files` is only
appended under Python truthiness (`if limit:`), so a limit of `0` is
ignored rather than returning zero rows. -/
def applyLimit {α : Type} (limit : Option Nat) (rows : List α) : List α :=
  match limit with
  | some n => if n = 0 then rows else rows.take n
  | none => rows

/-- Result of `list_files`: full rows when `details` is set, otherwise the
second column (`row[1]`, the filename) of each row. -/
inductive ListFilesResult where
  | rows (rs : List DocRow)
  | names (ns : List String)
  deriving Repr, DecidableEq

/-- Embedding of `SqliteDocListManager.list_files`: `SELECT * FROM documents`, with
`WHERE status = ?` appended when the filter is not `all` and `LIMIT ?`
appended when the limit is truthy; `details` selects between `fetchall()`
and `[row[1] for row in cursor]` (`row[1]` is the `filename` column). -/
def list_files (db : DB) (limit : Option Nat) (details : Bool)
    (status : String) : ListFilesResult :=
  let rows := db.documents.filter
    (fun r => if status = Status.all then true else r.status = status)
  let rows := applyLimit limit rows
  if details then .rows rows else .names (rows.map (fun r => r.filename))

/-- The row shape produced by the join in `list_kb_group_files`:
`(kb.doc_id, documents.path, kb.group_name, kb.classification, kb.status,
kb.log)`. -/
structure KbJoinRow where
  doc_id : String
  path : String
  group_name : String
  classification : Option String
  status : String
  log : Option String
  deriving Repr, DecidableEq

/-- The query string assembled by `list_kb_group_files`: the base join,
then ` WHERE kb_group_documents.group_name = ?` when `group` is truthy,
then ` AND kb_group_documents.status = ?` when the status filter is not
`all`, then ` LIMIT ?` when the limit is truthy. -/
structure KbQuery where
  whereGroup : Option String
  andStatus : Option String
  limit : Option Nat
  deriving Repr, DecidableEq

/-- Clause assembly of `list_kb_group_files` (Python truthiness on
`group`: both `None` and the empty string skip the `WHERE` clause). -/
def buildKbQuery (group : Option String) (limit : Option Nat)
    (status : String) : KbQuery :=
  { whereGroup := match group with
      | some g => if g = "" then none else some g
      | none => none,
    andStatus := if status = Status.all then none else some status,
    limit := limit }

/-- The inner join `kb_group_documents JOIN documents ON doc_id`. -/
def kbJoin (db : DB) : List KbJoinRow :=
  db.kb_group_documents.flatMap
    (fun kb =>
      (db.documents.filter (fun d => d.doc_id = kb.doc_id)).map
        (fun d => ⟨kb.doc_id, d.path, kb.group_name, kb.classification,
                   kb.status, kb.log⟩))

/-- Execution of the assembled `list_kb_group_files` query.  Both
optional conjuncts filter the joined rows: when the group clause is
present the status conjunct extends its `WHERE`; when it is absent the
status conjunct is appended directly after the `JOIN ... ON` condition
and extends it, which filters the inner join identically (verified
against sqlite). -/
def execKbQuery (db : DB) (q : KbQuery) : List KbJoinRow :=
  let rows := kbJoin db
  let rows := match q.whereGroup with
    | some g => rows.filter (fun r => r.group_name = g)
    | none => rows
  let rows := match q.andStatus with
    | some s => rows.filter (fun r => r.status = s)
    | none => rows
  applyLimit q.limit rows

/-- Result of `list_kb_group_files`: full join rows when `details` is set,
otherwise `row[:2]`, i.e. `(doc_id, path)` pairs. -/
inductive KbListResult where
  | rows (rs : List KbJoinRow)
  | pairs (ps : List (String × String))
  deriving Repr, DecidableEq

/-- Embedding of `SqliteDocListManager.list_kb_group_files`: build the query from the
arguments, execute it, and project to `(doc_id, path)` pairs (`row[:2]`)
unless `details` is set. -/
def list_kb_group_files (db : DB) (group : Option String)
    (limit : Option Nat) (details : Bool) (status : String) : KbListResult :=
  let rows := execKbQuery db (buildKbQuery group limit status)
  if details then .rows rows
  else .pairs (rows.map (fun r => (r.doc_id, r.path)))

/-! ## Registry construction (`DocListManager.__init__`,
`SqliteDocListManager.__init__`) -/

/-- Model of `os.path.isabs` on posix paths: `path.startswith('/')`, i.e. the
first character is a slash. -/
def os_path_isabs (p : String) : Bool := p.toList.headD ' ' == '/'

/-- The error raised by `DocListManager.__init__` for a relative path
(`ValueError("directory must be an absolute path")`). -/
inductive InitError where
  | configError
  deriving Repr, DecidableEq

/-- Side effects performed by construction; `SqliteDocListManager.__init__`
runs `os.system(f'mkdir -p {root_dir}')`. -/
inductive IOEffect where
  | mkdirP (dir : String)
  deriving Repr, DecidableEq

/-- The fields assigned by `DocListManager.__init__`. -/
structure ManagerBase where
  path : String
  name : String
  id : String
  deriving Repr, DecidableEq

/-- Embedding of `DocListManager.__init__`: store path and name, derive the identity
hash of `f'{name}@+@{path}'`, then raise unless the path is absolute.  No
I/O is performed in either branch. -/
def docListManagerInit (idHash : String → String) (path name : String) :
    Except InitError ManagerBase :=
  let base : ManagerBase := ⟨path, name, idHash (name ++ "@+@" ++ path)⟩
  if os_path_isabs path then .ok base else .error .configError

/-- The fields assigned by `SqliteDocListManager.__init__`. -/
structure SqliteManager where
  base : ManagerBase
  db_path : String
  deriving Repr, DecidableEq

/-- Embedding of `SqliteDocListManager.__init__`: run the base initializer first (so a
relative path raises before anything else executes), then create the
per-user db directory (`homeDir` stands for the expanded `config['home']`)
and derive the backing-store filename from the identity hash.  The effect
list records the I/O performed. -/
def sqliteDocListManagerInit (idHash : String → String) (homeDir : String)
    (path name : String) : Except InitError (SqliteManager × List IOEffect) :=
  match docListManagerInit idHash path name with
  | .error e => .error e
  | .ok base =>
      let root_dir := homeDir ++ "/.dbs"
      .ok (⟨base, root_dir ++ "/.lazyllm_dlmanager." ++ base.id ++ ".db"⟩,
           [.mkdirP root_dir])

/-! ## Ingestion pipeline (`_save_file_to_cache`, stage 2 of
`save_files_in_threads`) -/

/-- The list `Default_Suport_File_Types` from the source. -/
def Default_Suport_File_Types : List String := [".docx", ".pdf", ".txt", ".json"]

/-- The extension component of `os.path.splitext(p)[-1]`: the final
suffix of the basename starting at its last dot, where leading dots of
the basename do not count. -/
def splitext_ext (p : String) : String :=
  let base := (splitOnChar '/' p.toList).getLastD []
  let nLead := (base.takeWhile (fun c => c = '.')).length
  let rest := base.drop nLead
  let parts := splitOnChar '.' rest
  if parts.length ≤ 1 then "" else String.mk ('.' :: parts.getLastD [])

/-- Python's `str.endswith`. -/
def str_endswith (s suffix : String) : Bool :=
  suffix.toList.isSuffixOf s.toList

/-- Embedding of `_convert_path_to_underscores`: flatten path separators (forward and
backward slashes) into underscores. -/
def _convert_path_to_underscores (file_path : String) : String :=
  String.mk (file_path.toList.map (fun c => if c = '/' ∨ c = '\\' then '_' else c))

/-- A member of a tar archive, identified by its (possibly nested)
name. -/
structure TarMember where
  name : String
  deriving Repr, DecidableEq

/-- An `UploadFile` as the pipeline sees it: a filename plus, when the
file is a tar archive, its member list. -/
structure UpFile where
  filename : String
  members : List TarMember
  deriving Repr, DecidableEq

/-- Writing a file into a directory modelled as the list of names
present: after `_save_file` the name is present (content is not
modelled). -/
def dirWrite (dir : List String) (name : String) : List String :=
  if name ∈ dir then dir else dir ++ [name]

/-- Model of `os.remove`: the name is no longer present. -/
def dirRemove (dir : List String) (name : String) : List String :=
  dir.filter (fun n => n ≠ name)

/-- One member step of the `unpack_archive` loop inside
`_save_file_to_cache`: extract the member into the cache when its
extension is in the recognized set, recording its name; skip it
otherwise. -/
def extractStep (suport_file_types : List String)
    (acc : List String × List String) (m : TarMember) :
    List String × List String :=
  if splitext_ext m.name ∈ suport_file_types then
    (dirWrite acc.1 m.name, acc.2 ++ [m.name])
  else acc

/-- Embedding of `_save_file_to_cache`: for a `.tar` filename, save the archive into
the cache, run the extraction loop over its members, and remove the saved
archive; otherwise save the file itself when its extension is recognized
(skipping the write when a same-named cache file exists) and return its
name, or return nothing.  Result: the cache contents afterwards and the
returned name list. -/
def _save_file_to_cache (file : UpFile) (cache : List String)
    (suport_file_types : List String) : List String × List String :=
  if str_endswith file.filename ".tar" then
    let cache := dirWrite cache file.filename
    let step := file.members.foldl (extractStep suport_file_types) (cache, [])
    (dirRemove step.1 file.filename, step.2)
  else
    if splitext_ext file.filename ∈ suport_file_types then
      (dirWrite cache file.filename, [file.filename])
    else (cache, [])

/-- The filesystem state stage 2 of `save_files_in_threads` acts on: the
names staged in the scratch cache directory, the (flattened) names in the
destination directory, and whether the cache directory exists. -/
structure FS where
  cacheFiles : List String
  realFiles : List String
  cacheDirExists : Bool
  deriving Repr, DecidableEq

/-- Outcome of a completed promotion: final filesystem plus the three
classification lists in the order the source returns them. -/
structure PromoteOutcome where
  fs : FS
  already_exist_files : List String
  new_add_files : List String
  overwritten_files : List String
  deriving Repr, DecidableEq

/-- Result of stage 2: either the outcome, or the filesystem state at the
point where an `os.rename` raised (the exception propagates, skipping the
rest of the loop and the final cleanup). -/
inductive PromoteResult where
  | ok (o : PromoteOutcome)
  | error (fs : FS)
  deriving Repr, DecidableEq

/-- The promotion loop of `save_files_in_threads`: for each staged name,
flatten separators, then classify against the destination.  `os.rename`
raises `FileNotFoundError` when the staged source no longer exists in the
cache (which happens when the same name occurs twice in the staged
list). -/
def promoteLoop (override : Bool) (fs : FS)
    (ae na ow : List String) : List String → PromoteResult
  | [] => .ok ⟨fs, ae, na, ow⟩
  | file_name :: rest =>
    if _convert_path_to_underscores file_name ∈ fs.realFiles then
      if !override then promoteLoop override fs (ae ++ [file_name]) na ow rest
      else if file_name ∈ fs.cacheFiles then
        promoteLoop override
          { fs with cacheFiles := dirRemove fs.cacheFiles file_name }
          ae na (ow ++ [file_name]) rest
      else .error fs
    else
      if file_name ∈ fs.cacheFiles then
        promoteLoop override
          { fs with cacheFiles := dirRemove fs.cacheFiles file_name,
                    realFiles := fs.realFiles ++ [_convert_path_to_underscores file_name] }
          ae (na ++ [file_name]) ow rest
      else .error fs

/-- Stage 2 of `save_files_in_threads` followed by the terminal cleanup:
run the promotion loop over the staged names collected from the worker
tasks (stage 1 is abstracted into the `staged` argument, since the
threaded tasks deliver names in completion order), then delete the cache
directory if it still exists. -/
def save_files_in_threads_promote (override : Bool) (fs : FS)
    (staged : List String) : PromoteResult :=
  match promoteLoop override fs [] [] [] staged with
  | .ok o =>
      .ok { o with fs :=
              if o.fs.cacheDirExists then
                { o.fs with cacheFiles := [], cacheDirExists := false }
              else o.fs }
  | .error fs => .error fs

/-! ### Content-aware refinement of stage 2

The same promotion loop, with each directory now an association of names
to file contents (an opaque `Nat` stands for a file's byte string).  This
refinement is what the byte-level collision policy is stated over: an
`os.rename(cache_file_path, real_file_path)` moves the staged entry's
content onto the flattened destination name, replacing the destination
content when the name exists, and raises when the staged source is
gone. -/

/-- A directory with contents: the entries present, as (name, content)
pairs. -/
abbrev CDir := List (String × Nat)

/-- Reading a file: the content of the entry with the given name, `none`
when no such file exists. -/
def lookupFile : CDir → String → Option Nat
  | [], _ => none
  | e :: es, name => if e.1 = name then some e.2 else lookupFile es name

/-- Model of `os.remove` / the disappearance of a rename source: the
entry is gone. -/
def removeEntry (dir : CDir) (name : String) : CDir :=
  dir.filter (fun e => e.1 ≠ name)

/-- Renaming over an existing destination entry: its content is replaced
in place. -/
def writeOver : CDir → String → Nat → CDir
  | [], _, _ => []
  | e :: es, name, c =>
      (if e.1 = name then (e.1, c) else e) :: writeOver es name c

/-- The stage-2 filesystem with contents: cache entries, destination
entries, and the cache-directory flag. -/
structure CFS where
  cacheFiles : CDir
  realFiles : CDir
  cacheDirExists : Bool
  deriving Repr, DecidableEq

/-- Outcome of a completed content-aware promotion. -/
structure CPromoteOutcome where
  fs : CFS
  already_exist_files : List String
  new_add_files : List String
  overwritten_files : List String
  deriving Repr, DecidableEq

/-- Result of content-aware stage 2: the outcome, or the filesystem at
the point where an `os.rename` raised. -/
inductive CPromoteResult where
  | ok (o : CPromoteOutcome)
  | error (fs : CFS)
  deriving Repr, DecidableEq

/-- The promotion loop of `save_files_in_threads` over contents: for each
staged name, flatten separators and classify against the destination;
`os.rename` moves the staged content onto the flattened name (replacing
the destination entry in the overwrite branch, appending it in the
newly-added branch) and raises `FileNotFoundError` when the staged
source no longer exists. -/
def promoteLoopC (override : Bool) (fs : CFS)
    (ae na ow : List String) : List String → CPromoteResult
  | [] => .ok ⟨fs, ae, na, ow⟩
  | file_name :: rest =>
    if _convert_path_to_underscores file_name ∈ fs.realFiles.map Prod.fst then
      if !override then promoteLoopC override fs (ae ++ [file_name]) na ow rest
      else
        match lookupFile fs.cacheFiles file_name with
        | some c =>
            promoteLoopC override
              { fs with
                cacheFiles := removeEntry fs.cacheFiles file_name,
                realFiles := writeOver fs.realFiles
                  (_convert_path_to_underscores file_name) c }
              ae na (ow ++ [file_name]) rest
        | none => .error fs
    else
      match lookupFile fs.cacheFiles file_name with
      | some c =>
          promoteLoopC override
            { fs with
              cacheFiles := removeEntry fs.cacheFiles file_name,
              realFiles := fs.realFiles
                ++ [(_convert_path_to_underscores file_name, c)] }
            ae (na ++ [file_name]) ow rest
      | none => .error fs

/-- Content-aware stage 2 of `save_files_in_threads` with the terminal
cleanup: run the promotion loop over the staged names, then delete the
cache directory if it still exists. -/
def save_files_in_threads_promoteC (override : Bool) (fs : CFS)
    (staged : List String) : CPromoteResult :=
  match promoteLoopC override fs [] [] [] staged with
  | .ok o =>
      .ok { o with fs :=
              if o.fs.cacheDirExists then
                { o.fs with cacheFiles := [], cacheDirExists := false }
              else o.fs }
  | .error fs => .error fs

/-- A concrete content-aware stage-2 state: two staged files, one of
which collides with the destination entry `("a.txt", 9)`. -/
def exCfs : CFS := ⟨[("a.txt", 1), ("c.txt", 2)], [("a.txt", 9)], true⟩

/-- A small concrete store used to evaluate listing behaviour: one
document whose filename differs from its path, one group, one membership
with status `waiting`. -/
def exDb : DB :=
  { documents := [⟨"d1", "b.txt", "/a/b.txt", "", "waiting", 1⟩],
    document_groups := ["g"],
    kb_group_documents := [⟨1, "d1", "g", none, "waiting", none⟩],
    next_kb_id := 2 }

/-! ## Theorems -/

/-- C8: constructing a registry (`DocListManager` or its sqlite backend)
with a non-absolute directory path fails with the configuration error;
the error branch carries no effect list, so no I/O is performed. -/
theorem C8_nonabsolute_path_fails_before_io (idHash : String → String)
    (homeDir path name : String) (h : os_path_isabs path = false) :
    sqliteDocListManagerInit idHash homeDir path name = .error .configError := by
  unfold sqliteDocListManagerInit docListManagerInit
  simp [h]

/-- Witness for C8 at the concrete relative path `"rel/dir"`. -/
theorem C8_witness :
    os_path_isabs "rel/dir" = false ∧
      sqliteDocListManagerInit (fun s => s) "/home/u" "rel/dir" "docs"
        = .error .configError :=
  ⟨by decide, C8_nonabsolute_path_fails_before_io (fun s => s) "/home/u" "rel/dir" "docs" (by decide)⟩

/-- C9: `delete_files` removes exactly the document rows whose `doc_id`
matches a listed path's hash; the membership table and the group table
are untouched (no cascade). -/
theorem C9_delete_files_frame (docId : String → String) (db : DB)
    (files : List String) :
    (delete_files docId db files).documents
        = db.documents.filter (fun r => ¬ files.any (fun f => docId f = r.doc_id)) ∧
      (delete_files docId db files).kb_group_documents = db.kb_group_documents ∧
      (delete_files docId db files).document_groups = db.document_groups ∧
      (delete_files docId db files).next_kb_id = db.next_kb_id := by
  induction files generalizing db with
  | nil => simp [delete_files]
  | cons f fs ih =>
      have h := ih { db with
        documents := db.documents.filter (fun r => r.doc_id ≠ docId f) }
      have hstep : delete_files docId db (f :: fs)
          = delete_files docId
              { db with documents := db.documents.filter (fun r => r.doc_id ≠ docId f) }
              fs := rfl
      rw [hstep]
      refine ⟨?_, h.2.1, h.2.2.1, h.2.2.2⟩
      rw [h.1, List.filter_filter]
      refine List.filter_congr (fun r _ => ?_)
      have hc : (r.doc_id = docId f) ↔ (docId f = r.doc_id) := eq_comm
      cases hany : fs.any (fun x => decide (docId x = r.doc_id)) <;>
        by_cases hf : docId f = r.doc_id <;>
          simp [List.any_cons, hany, hf, hc]

/-- C10: `get_file_status` on a `doc_id` that has no document row returns
`None` (the embedding is a pure read, so the catalog is unchanged by
construction). -/
theorem C10_get_file_status_missing (db : DB) (fileid : String)
    (h : ∀ r ∈ db.documents, r.doc_id ≠ fileid) :
    get_file_status db fileid = none := by
  unfold get_file_status
  rw [List.find?_eq_none.mpr]
  · rfl
  · intro r hr
    simp [h r hr]

/-- Witness for C10: querying `exDb` for an absent id. -/
theorem C10_witness :
    (∀ r ∈ exDb.documents, r.doc_id ≠ "missing") ∧
      get_file_status exDb "missing" = none :=
  ⟨by decide, C10_get_file_status_missing exDb "missing" (by decide)⟩

/-- Rows carrying an already-present `doc_id` survive `insertOrIgnoreDoc`
unchanged, and the id stays present. -/
theorem insertOrIgnoreDoc_preserves (db : DB) (row : DocRow) (d : String)
    (h : db.documents.any (fun r => r.doc_id = d) = true) :
    (insertOrIgnoreDoc db row).documents.filter (fun r => r.doc_id = d)
        = db.documents.filter (fun r => r.doc_id = d) ∧
      (insertOrIgnoreDoc db row).documents.any (fun r => r.doc_id = d) = true := by
  by_cases hc : db.documents.any (fun r => r.doc_id = row.doc_id) = true
  · have heq : insertOrIgnoreDoc db row = db := by
      unfold insertOrIgnoreDoc
      simp [hc]
    rw [heq]
    exact ⟨rfl, h⟩
  · have hne : row.doc_id ≠ d := fun he => hc (he ▸ h)
    have hins : (insertOrIgnoreDoc db row).documents = db.documents ++ [row] := by
      unfold insertOrIgnoreDoc
      simp [hc]
    rw [hins]
    constructor
    · rw [List.filter_append]
      simp [hne]
    · simp [h]

/-- Folding insert-or-ignore over any sequence of rows preserves the
sublist of rows carrying an already-present id. -/
theorem foldl_insertOrIgnoreDoc_preserves {α : Type} (mkRow : α → DocRow)
    (L : List α) (db : DB) (d : String)
    (h : db.documents.any (fun r => r.doc_id = d) = true) :
    (L.foldl (fun db fp => insertOrIgnoreDoc db (mkRow fp)) db).documents.filter
        (fun r => r.doc_id = d)
      = db.documents.filter (fun r => r.doc_id = d) := by
  induction L generalizing db with
  | nil => rfl
  | cons p ps ih =>
      have h1 := insertOrIgnoreDoc_preserves db (mkRow p) d h
      simp only [List.foldl_cons]
      rw [ih _ h1.2, h1.1]

/-- The operation `add_files` never touches the document rows of an id that already
exists: the sublist of rows with that `doc_id` is exactly preserved. -/
theorem add_files_preserves_existing (docId : String → String) (db : DB)
    (files : List String) (metadatas : Option (List String))
    (status : Option String) (d : String)
    (h : db.documents.any (fun r => r.doc_id = d) = true) :
    (add_files docId db files metadatas status).documents.filter
        (fun r => r.doc_id = d)
      = db.documents.filter (fun r => r.doc_id = d) :=
  foldl_insertOrIgnoreDoc_preserves
    (fun fp : Nat × String =>
      ⟨docId fp.2, basename fp.2, fp.2,
        (match metadatas with
          | some ms => ms.getD fp.1 ""
          | none => ""),
        status.getD Status.waiting, 1⟩)
    files.enum db d h

/-- C5: re-adding a path whose document row already exists is a no-op for
that row: the rows carrying its `doc_id` (in particular every field of
the existing row, and the absence of a duplicate) are exactly
preserved. -/
theorem C5_readd_existing_path_noop (docId : String → String) (db : DB)
    (p : String) (files : List String) (metadatas : Option (List String))
    (status : Option String) (_hmem : p ∈ files)
    (h : db.documents.any (fun r => r.doc_id = docId p) = true) :
    (add_files docId db files metadatas status).documents.filter
        (fun r => r.doc_id = docId p)
      = db.documents.filter (fun r => r.doc_id = docId p) :=
  add_files_preserves_existing docId db files metadatas status (docId p) h

/-- Witness for C5: re-adding `"/a/b.txt"` over a store that already has
its row. -/
theorem C5_witness :
    (("/a/b.txt" : String) ∈ ["/a/b.txt"] ∧
      (DB.mk [⟨"/a/b.txt", "b.txt", "/a/b.txt", "", "success", 1⟩] [] [] 1).documents.any
          (fun r => r.doc_id = (fun s => s) "/a/b.txt") = true) ∧
      (add_files (fun s => s)
          (DB.mk [⟨"/a/b.txt", "b.txt", "/a/b.txt", "", "success", 1⟩] [] [] 1)
          ["/a/b.txt"] none none).documents.filter
            (fun r => r.doc_id = (fun s => s) "/a/b.txt")
        = (DB.mk [⟨"/a/b.txt", "b.txt", "/a/b.txt", "", "success", 1⟩] [] [] 1).documents.filter
            (fun r => r.doc_id = (fun s => s) "/a/b.txt") :=
  ⟨⟨by decide, by decide⟩,
    C5_readd_existing_path_noop (fun s => s)
      (DB.mk [⟨"/a/b.txt", "b.txt", "/a/b.txt", "", "success", 1⟩] [] [] 1)
      "/a/b.txt" ["/a/b.txt"] none none (by decide) (by decide)⟩

/-- C1: `kb_group_documents` has no uniqueness constraint over
`(doc_id, group_name)` — its only key is the autoincrement id — so the
`INSERT OR IGNORE` of `add_files_to_kb_group` never ignores anything: a
second call with the same path and group appends a duplicate membership
row instead of being a no-op. -/
theorem C1_second_call_duplicates_membership :
    (add_files_to_kb_group (fun s => s)
        (add_files_to_kb_group (fun s => s) DB.empty ["f"] "g") ["f"] "g").kb_group_documents
      = [⟨1, "f", "g", none, Status.waiting, none⟩,
         ⟨2, "f", "g", none, Status.waiting, none⟩] := rfl

/-- Counterexample for C2: a row cap of `0` is falsy in Python, so the
`LIMIT` clause is never appended and the membership row is returned in
spite of the given cap. -/
theorem C2_counterexample :
    list_kb_group_files exDb (some "g") (some 0) false Status.all
        = .pairs [("d1", "/a/b.txt")] ∧
      ¬ ([("d1", "/a/b.txt")] : List (String × String)).length ≤ 0 :=
  ⟨rfl, by decide⟩

/-- C2 (amended): the rows produced by `list_kb_group_files` are the
joined membership rows filtered by group-name equality when a non-empty
group is given and by membership-status equality whenever the status is
not `all` — including when no group is given, in which case the appended
conjunct extends the join's `ON` condition and filters identically —
truncated by a nonzero row cap, and projected to `(doc_id, path)` pairs
unless the detail flag is set. -/
theorem C2_list_kb_group_files_filters (db : DB) (group : Option String)
    (limit : Option Nat) (details : Bool) (status : String) :
    (execKbQuery db (buildKbQuery group limit status)
        = applyLimit limit ((kbJoin db).filter
            (fun r =>
              (match group with
                | some g => decide (g = "" ∨ r.group_name = g)
                | none => true)
              && decide (status = Status.all ∨ r.status = status)))) ∧
      list_kb_group_files db group limit details status
        = (if details then
            KbListResult.rows (execKbQuery db (buildKbQuery group limit status))
          else
            KbListResult.pairs ((execKbQuery db (buildKbQuery group limit status)).map
              (fun r => (r.doc_id, r.path)))) := by
  refine ⟨?_, rfl⟩
  rcases group with _ | g
  · by_cases hs : status = Status.all
    · rw [show buildKbQuery none limit status = ⟨none, none, limit⟩ from by
        simp [buildKbQuery, hs]]
      show applyLimit limit (kbJoin db) = _
      congr 1
      symm
      refine List.filter_eq_self.mpr (fun r _ => ?_)
      simp [hs]
    · rw [show buildKbQuery none limit status = ⟨none, some status, limit⟩ from by
        simp [buildKbQuery, hs]]
      show applyLimit limit ((kbJoin db).filter (fun r => r.status = status)) = _
      congr 1
      refine List.filter_congr (fun r _ => ?_)
      simp [hs]
  · by_cases hg : g = ""
    · by_cases hs : status = Status.all
      · rw [show buildKbQuery (some g) limit status = ⟨none, none, limit⟩ from by
          simp [buildKbQuery, hg, hs]]
        show applyLimit limit (kbJoin db) = _
        congr 1
        symm
        refine List.filter_eq_self.mpr (fun r _ => ?_)
        simp [hg, hs]
      · rw [show buildKbQuery (some g) limit status = ⟨none, some status, limit⟩ from by
          simp [buildKbQuery, hg, hs]]
        show applyLimit limit ((kbJoin db).filter (fun r => r.status = status)) = _
        congr 1
        refine List.filter_congr (fun r _ => ?_)
        simp [hg, hs]
    · by_cases hs : status = Status.all
      · rw [show buildKbQuery (some g) limit status = ⟨some g, none, limit⟩ from by
          simp [buildKbQuery, hg, hs]]
        show applyLimit limit ((kbJoin db).filter (fun r => r.group_name = g)) = _
        congr 1
        refine List.filter_congr (fun r _ => ?_)
        simp [hg, hs]
      · rw [show buildKbQuery (some g) limit status = ⟨some g, some status, limit⟩ from by
          simp [buildKbQuery, hg, hs]]
        show applyLimit limit
            (((kbJoin db).filter (fun r => r.group_name = g)).filter
              (fun r => r.status = status)) = _
        congr 1
        rw [List.filter_filter]
        refine List.filter_congr (fun r _ => ?_)
        by_cases h1 : r.group_name = g <;> by_cases h2 : r.status = status <;>
          simp [hg, hs, h1, h2]

/-- Counterexample for C3: in `exDb` the only document has path
`"/a/b.txt"` and filename `"b.txt"`; the non-detail listing returns the
filename, not the path, so the listing is not the sequence of document
paths. -/
theorem C3_counterexample :
    list_files exDb none false Status.all = .names ["b.txt"] ∧
      exDb.documents.map (fun r => r.path) = ["/a/b.txt"] ∧
      ListFilesResult.names ["b.txt"] ≠ ListFilesResult.names ["/a/b.txt"] :=
  ⟨rfl, rfl, by decide⟩

/-- C3 (amended): the non-detail listing returns the filenames (the
second column) of exactly the rows matching the status filter, the
detail listing returns those full rows, and the filtered subset contains
a row exactly when the store contains it and its status matches (all
rows when the filter is `all`); a truthy row cap truncates. -/
theorem C3_list_files_returns_filenames (db : DB) (limit : Option Nat)
    (status : String) :
    list_files db limit false status
        = .names ((applyLimit limit (db.documents.filter
            (fun r => status = Status.all ∨ r.status = status))).map
              (fun r => r.filename)) ∧
      list_files db limit true status
        = .rows (applyLimit limit (db.documents.filter
            (fun r => status = Status.all ∨ r.status = status))) ∧
      ∀ r : DocRow,
        (r ∈ db.documents.filter (fun r => status = Status.all ∨ r.status = status))
          ↔ (r ∈ db.documents ∧ (status = Status.all ∨ r.status = status)) := by
  have hp : db.documents.filter
        (fun r => if status = Status.all then true else decide (r.status = status))
      = db.documents.filter (fun r => status = Status.all ∨ r.status = status) := by
    refine List.filter_congr (fun r _ => ?_)
    by_cases h : status = Status.all <;> simp [h]
  refine ⟨?_, ?_, ?_⟩
  · unfold list_files
    rw [hp]
    rfl
  · unfold list_files
    rw [hp]
    rfl
  · intro r
    simp [List.mem_filter]

/-- The promotion loop never touches the cache-directory flag. -/
theorem promoteLoop_cacheDirExists (override : Bool) (staged : List String)
    (fs : FS) (ae na ow : List String) (o : PromoteOutcome)
    (h : promoteLoop override fs ae na ow staged = .ok o) :
    o.fs.cacheDirExists = fs.cacheDirExists := by
  induction staged generalizing fs ae na ow with
  | nil =>
      simp only [promoteLoop] at h
      cases h
      rfl
  | cons f rest ih =>
      simp only [promoteLoop] at h
      split at h
      · split at h
        · exact ih _ _ _ _ h
        · split at h
          · have h2 := ih _ _ _ _ h
            exact h2
          · cases h
      · split at h
        · have h2 := ih _ _ _ _ h
          exact h2
        · cases h

/-- Counterexample for C4: with overwrite enabled and the same staged name
delivered twice (two uploads sharing one filename stage a single cache
file), the second rename finds its source gone and raises; the function
terminates with the scratch cache directory still in place. -/
theorem C4_counterexample :
    save_files_in_threads_promote true ⟨["a.txt"], [], true⟩ ["a.txt", "a.txt"]
        = .error ⟨[], ["a.txt"], true⟩ ∧
      (FS.mk [] ["a.txt"] true).cacheDirExists = true :=
  ⟨rfl, rfl⟩

/-- C4 (amended): whenever stage 2 of `save_files_in_threads` finishes
without a promotion error, the terminal cleanup removes the scratch cache
directory and its contents, leaving the destination with final files
only; a promotion error instead propagates and skips the cleanup. -/
theorem C4_cache_removed_on_normal_return (override : Bool) (fs : FS)
    (staged : List String) (o : PromoteOutcome)
    (hdir : fs.cacheDirExists = true)
    (h : save_files_in_threads_promote override fs staged = .ok o) :
    o.fs.cacheDirExists = false ∧ o.fs.cacheFiles = [] := by
  unfold save_files_in_threads_promote at h
  cases hl : promoteLoop override fs [] [] [] staged with
  | ok o1 =>
      rw [hl] at h
      have hd : o1.fs.cacheDirExists = true :=
        (promoteLoop_cacheDirExists override staged fs [] [] [] o1 hl).trans hdir
      simp only [hd, if_true] at h
      cases h
      exact ⟨rfl, rfl⟩
  | error fs1 =>
      rw [hl] at h
      cases h

/-- Witness for C4: a successful single-file promotion ends with the cache
directory gone. -/
theorem C4_witness :
    ((FS.mk ["a.txt"] [] true).cacheDirExists = true ∧
      save_files_in_threads_promote false ⟨["a.txt"], [], true⟩ ["a.txt"]
        = .ok ⟨⟨[], ["a.txt"], false⟩, [], ["a.txt"], []⟩) ∧
      ((PromoteOutcome.mk ⟨[], ["a.txt"], false⟩ [] ["a.txt"] []).fs.cacheDirExists = false ∧
        (PromoteOutcome.mk ⟨[], ["a.txt"], false⟩ [] ["a.txt"] []).fs.cacheFiles = []) :=
  ⟨⟨rfl, rfl⟩,
    C4_cache_removed_on_normal_return false ⟨["a.txt"], [], true⟩ ["a.txt"]
      ⟨⟨[], ["a.txt"], false⟩, [], ["a.txt"], []⟩ rfl rfl⟩

/-- Unfolding `removeEntry` one entry at a time. -/
theorem removeEntry_cons (e : String × Nat) (es : CDir) (a : String) :
    removeEntry (e :: es) a
      = if e.1 = a then removeEntry es a else e :: removeEntry es a := by
  by_cases hea : e.1 = a <;> simp [removeEntry, List.filter_cons, hea]

/-- A name present among a directory's entry names has a content. -/
theorem lookupFile_isSome_of_mem (l : CDir) (b : String)
    (h : b ∈ l.map Prod.fst) : ∃ c, lookupFile l b = some c := by
  induction l with
  | nil => simp at h
  | cons e es ih =>
      by_cases he : e.1 = b
      · exact ⟨e.2, by simp [lookupFile, he]⟩
      · have h2 : b = e.1 ∨ b ∈ es.map Prod.fst := by simpa using h
        rcases h2 with h3 | h3
        · exact absurd h3.symm he
        · obtain ⟨c, hc⟩ := ih h3
          exact ⟨c, by simp [lookupFile, he, hc]⟩

/-- Removing one entry leaves every other name's content unchanged. -/
theorem lookupFile_removeEntry_of_ne (l : CDir) (a b : String) (h : b ≠ a) :
    lookupFile (removeEntry l a) b = lookupFile l b := by
  induction l with
  | nil => rfl
  | cons e es ih =>
      rw [removeEntry_cons]
      have hab : ¬ a = b := fun x => h x.symm
      by_cases hea : e.1 = a
      · have heb : ¬ e.1 = b := fun hb => h (hb.symm.trans hea)
        simp [lookupFile, hea, heb, ih, hab, h]
      · by_cases heb : e.1 = b <;> simp [lookupFile, hea, heb, ih, hab, h]

/-- The entry names left by `removeEntry`. -/
theorem removeEntry_map_fst (l : CDir) (a : String) :
    (removeEntry l a).map Prod.fst = (l.map Prod.fst).filter (fun x => x ≠ a) := by
  induction l with
  | nil => rfl
  | cons e es ih =>
      rw [removeEntry_cons]
      by_cases hea : e.1 = a <;> simp [List.filter_cons, hea, ih]

/-- Replacing one entry's content preserves the entry names. -/
theorem writeOver_map_fst (l : CDir) (a : String) (c : Nat) :
    (writeOver l a c).map Prod.fst = l.map Prod.fst := by
  induction l with
  | nil => rfl
  | cons e es ih =>
      by_cases hea : e.1 = a <;> simp [writeOver, hea, ih]

/-- Replacing one entry's content leaves every other name's content
unchanged. -/
theorem lookupFile_writeOver_of_ne (l : CDir) (a b : String) (c : Nat)
    (h : b ≠ a) :
    lookupFile (writeOver l a c) b = lookupFile l b := by
  induction l with
  | nil => rfl
  | cons e es ih =>
      have hab : ¬ a = b := fun x => h x.symm
      by_cases hea : e.1 = a
      · have heb : ¬ e.1 = b := fun hb => h (hb.symm.trans hea)
        simp [writeOver, lookupFile, hea, heb, ih, hab, h]
      · by_cases heb : e.1 = b <;> simp [writeOver, lookupFile, hea, heb, ih, hab, h]

/-- Replacing an existing entry's content makes that content the one read
back. -/
theorem lookupFile_writeOver_self (l : CDir) (a : String) (c : Nat)
    (h : a ∈ l.map Prod.fst) :
    lookupFile (writeOver l a c) a = some c := by
  induction l with
  | nil => simp at h
  | cons e es ih =>
      by_cases hea : e.1 = a
      · simp [writeOver, lookupFile, hea]
      · have h2 : a = e.1 ∨ a ∈ es.map Prod.fst := by simpa using h
        rcases h2 with h3 | h3
        · exact absurd h3.symm hea
        · simp [writeOver, lookupFile, hea, ih h3]

/-- Appending a fresh entry leaves every other name's content
unchanged. -/
theorem lookupFile_append_of_ne (l : CDir) (a b : String) (c : Nat)
    (h : b ≠ a) :
    lookupFile (l ++ [(a, c)]) b = lookupFile l b := by
  induction l with
  | nil =>
      have hab : ¬ a = b := fun hab => h hab.symm
      simp [lookupFile, hab]
  | cons e es ih =>
      by_cases heb : e.1 = b <;> simp [lookupFile, heb, ih]

/-- Appending an entry under a name not yet present makes its content the
one read back. -/
theorem lookupFile_append_self (l : CDir) (a : String) (c : Nat)
    (h : a ∉ l.map Prod.fst) :
    lookupFile (l ++ [(a, c)]) a = some c := by
  induction l with
  | nil => simp [lookupFile]
  | cons e es ih =>
      have hea : ¬ e.1 = a := fun he => h (by simp [he])
      have h2 : a ∉ es.map Prod.fst := fun hm => h (by simp [hm])
      simp [lookupFile, hea, ih h2]

/-- When the flattened staged names are pairwise distinct and every staged
name is present in the cache, the content-aware promotion loop completes,
classifies each staged name against the destination as it was when the
loop started, and has the per-branch effect on destination contents: an
already-exists name keeps its destination content, an overwritten or
newly-added name ends with the staged cache content under its flattened
name, and names outside the staged set are untouched. -/
theorem promoteLoopC_classifies (override : Bool) (staged : List String)
    (fs : CFS) (ae na ow : List String)
    (hnodup : (staged.map _convert_path_to_underscores).Nodup)
    (hcache : ∀ f ∈ staged, f ∈ fs.cacheFiles.map Prod.fst) :
    ∃ fs', promoteLoopC override fs ae na ow staged
      = .ok ⟨fs',
          ae ++ cond override []
            (staged.filter (fun f =>
              _convert_path_to_underscores f ∈ fs.realFiles.map Prod.fst)),
          na ++ staged.filter (fun f =>
            _convert_path_to_underscores f ∉ fs.realFiles.map Prod.fst),
          ow ++ cond override
            (staged.filter (fun f =>
              _convert_path_to_underscores f ∈ fs.realFiles.map Prod.fst)) []⟩ ∧
      (∀ x, x ∉ staged.map _convert_path_to_underscores →
        lookupFile fs'.realFiles x = lookupFile fs.realFiles x) ∧
      (∀ g ∈ staged, ¬ override = true →
        _convert_path_to_underscores g ∈ fs.realFiles.map Prod.fst →
        lookupFile fs'.realFiles (_convert_path_to_underscores g)
          = lookupFile fs.realFiles (_convert_path_to_underscores g)) ∧
      (∀ g ∈ staged, override = true →
        _convert_path_to_underscores g ∈ fs.realFiles.map Prod.fst →
        lookupFile fs'.realFiles (_convert_path_to_underscores g)
          = lookupFile fs.cacheFiles g) ∧
      (∀ g ∈ staged,
        _convert_path_to_underscores g ∉ fs.realFiles.map Prod.fst →
        lookupFile fs'.realFiles (_convert_path_to_underscores g)
          = lookupFile fs.cacheFiles g) := by
  revert hnodup hcache
  induction staged generalizing fs ae na ow with
  | nil =>
      intro _ _
      refine ⟨fs, ?_, fun x _ => rfl, ?_, ?_, ?_⟩
      · cases override <;> simp [promoteLoopC]
      · intro g hg
        exact absurd hg (List.not_mem_nil g)
      · intro g hg
        exact absurd hg (List.not_mem_nil g)
      · intro g hg
        exact absurd hg (List.not_mem_nil g)
  | cons f rest ih =>
      intro hnodup hcache
      have hnodup2 := hnodup
      rw [List.map_cons, List.nodup_cons] at hnodup2
      have hhead : _convert_path_to_underscores f ∉
          rest.map _convert_path_to_underscores := hnodup2.1
      have htail : (rest.map _convert_path_to_underscores).Nodup := hnodup2.2
      have hf : f ∈ fs.cacheFiles.map Prod.fst :=
        hcache f (List.mem_cons_self f rest)
      obtain ⟨c, hc⟩ := lookupFile_isSome_of_mem _ _ hf
      have hne : ∀ g ∈ rest, g ≠ f :=
        fun g hg he => hhead (he ▸ List.mem_map_of_mem _ hg)
      have hgf : ∀ g ∈ rest,
          _convert_path_to_underscores g ≠ _convert_path_to_underscores f :=
        fun g hg he => hhead (he ▸ List.mem_map_of_mem _ hg)
      have hcache2 : ∀ g ∈ rest,
          g ∈ (removeEntry fs.cacheFiles f).map Prod.fst := by
        intro g hg
        rw [removeEntry_map_fst]
        simp only [List.mem_filter, decide_eq_true_eq]
        exact ⟨hcache g (List.mem_cons_of_mem _ hg), hne g hg⟩
      by_cases h1 : _convert_path_to_underscores f ∈ fs.realFiles.map Prod.fst
      · cases override with
        | false =>
            obtain ⟨fs', heq, hframe, hAE, hOW, hNA⟩ :=
              ih fs (ae ++ [f]) na ow htail
                (fun g hg => hcache g (List.mem_cons_of_mem _ hg))
            refine ⟨fs', ?_, ?_, ?_, ?_, ?_⟩
            · simp only [promoteLoopC, if_pos h1, Bool.not_false, if_true]
              rw [heq]
              simp [List.filter_cons, h1]
            · intro x hx
              exact hframe x (fun hm => hx (List.mem_cons_of_mem _ hm))
            · intro g hg _ hmem
              rcases List.mem_cons.mp hg with rfl | hg2
              · exact hframe _ hhead
              · exact hAE g hg2 (by simp) hmem
            · intro g hg hov
              exact absurd hov (by simp)
            · intro g hg hmem
              rcases List.mem_cons.mp hg with rfl | hg2
              · exact absurd h1 hmem
              · exact hNA g hg2 hmem
        | true =>
            obtain ⟨fs', heq, hframe, hAE, hOW, hNA⟩ :=
              ih { fs with
                  cacheFiles := removeEntry fs.cacheFiles f,
                  realFiles := writeOver fs.realFiles
                    (_convert_path_to_underscores f) c }
                ae na (ow ++ [f]) htail hcache2
            have hw : (writeOver fs.realFiles
                  (_convert_path_to_underscores f) c).map Prod.fst
                = fs.realFiles.map Prod.fst := writeOver_map_fst _ _ _
            have hwm : ∀ y, (y ∈ (writeOver fs.realFiles
                  (_convert_path_to_underscores f) c).map Prod.fst)
                ↔ y ∈ fs.realFiles.map Prod.fst := by
              intro y
              rw [hw]
            refine ⟨fs', ?_, ?_, ?_, ?_, ?_⟩
            · simp only [promoteLoopC, if_pos h1, Bool.not_true,
                Bool.false_eq_true, if_false, hc]
              rw [heq]
              simp [List.filter_cons, h1]
              constructor <;> refine List.filter_congr (fun g hg => ?_)
              · exact congrArg Bool.not (decide_eq_decide.mpr (hwm _))
              · exact decide_eq_decide.mpr (hwm _)
            · intro x hx
              have hx1 : x ∉ rest.map _convert_path_to_underscores :=
                fun hm => hx (List.mem_cons_of_mem _ hm)
              have hxf : x ≠ _convert_path_to_underscores f :=
                fun he => hx (by simp [he])
              exact (hframe x hx1).trans (lookupFile_writeOver_of_ne _ _ _ _ hxf)
            · intro g hg hno
              exact absurd rfl hno
            · intro g hg _ hmem
              rcases List.mem_cons.mp hg with rfl | hg2
              · exact (hframe _ hhead).trans
                  ((lookupFile_writeOver_self _ _ _ h1).trans hc.symm)
              · have hm1 : _convert_path_to_underscores g
                    ∈ (writeOver fs.realFiles
                        (_convert_path_to_underscores f) c).map Prod.fst := by
                  rw [hw]
                  exact hmem
                exact (hOW g hg2 rfl hm1).trans
                  (lookupFile_removeEntry_of_ne _ _ _ (hne g hg2))
            · intro g hg hmem
              rcases List.mem_cons.mp hg with rfl | hg2
              · exact absurd h1 hmem
              · have hm1 : _convert_path_to_underscores g
                    ∉ (writeOver fs.realFiles
                        (_convert_path_to_underscores f) c).map Prod.fst := by
                  rw [hw]
                  exact hmem
                exact (hNA g hg2 hm1).trans
                  (lookupFile_removeEntry_of_ne _ _ _ (hne g hg2))
      · cases override <;>
          · obtain ⟨fs', heq, hframe, hAE, hOW, hNA⟩ :=
              ih { fs with
                  cacheFiles := removeEntry fs.cacheFiles f,
                  realFiles := fs.realFiles
                    ++ [(_convert_path_to_underscores f, c)] }
                ae (na ++ [f]) ow htail hcache2
            have hext : ∀ g ∈ rest,
                (_convert_path_to_underscores g
                    ∈ (fs.realFiles
                        ++ [(_convert_path_to_underscores f, c)]).map Prod.fst)
                  ↔ _convert_path_to_underscores g ∈ fs.realFiles.map Prod.fst := by
              intro g hg
              simp [List.map_append, hgf g hg]
            refine ⟨fs', ?_, ?_, ?_, ?_, ?_⟩
            · simp only [promoteLoopC, if_neg h1, hc]
              rw [heq]
              simp [List.filter_cons, h1]
              constructor <;>
                · refine List.filter_congr (fun g hg => ?_)
                  simp [List.map_append, hgf g hg]
            · intro x hx
              have hx1 : x ∉ rest.map _convert_path_to_underscores :=
                fun hm => hx (List.mem_cons_of_mem _ hm)
              have hxf : x ≠ _convert_path_to_underscores f :=
                fun he => hx (by simp [he])
              exact (hframe x hx1).trans (lookupFile_append_of_ne _ _ _ _ hxf)
            · intro g hg hno hmem
              rcases List.mem_cons.mp hg with rfl | hg2
              · exact absurd hmem h1
              · have hm1 := (hext g hg2).mpr hmem
                exact (hAE g hg2 hno hm1).trans
                  (lookupFile_append_of_ne _ _ _ _ (hgf g hg2))
            · intro g hg hov hmem
              rcases List.mem_cons.mp hg with rfl | hg2
              · exact absurd hmem h1
              · have hm1 := (hext g hg2).mpr hmem
                exact (hOW g hg2 hov hm1).trans
                  (lookupFile_removeEntry_of_ne _ _ _ (hne g hg2))
            · intro g hg hmem
              rcases List.mem_cons.mp hg with rfl | hg2
              · exact (hframe _ hhead).trans
                  ((lookupFile_append_self _ _ _ h1).trans hc.symm)
              · have hm1 : _convert_path_to_underscores g
                    ∉ (fs.realFiles
                        ++ [(_convert_path_to_underscores f, c)]).map Prod.fst :=
                  fun hmm => hmem ((hext g hg2).mp hmm)
                exact (hNA g hg2 hm1).trans
                  (lookupFile_removeEntry_of_ne _ _ _ (hne g hg2))

/-- Counterexample for C6: the same staged name delivered twice (two
uploads sharing one filename stage a single cache file) with overwrite
off ends up in both the newly-added and the already-exists list, so the
returned lists are not disjoint. -/
theorem C6_counterexample :
    (save_files_in_threads_promoteC false ⟨[("a.txt", 7)], [], true⟩
          ["a.txt", "a.txt"]
        = .ok ⟨⟨[], [("a.txt", 7)], false⟩, ["a.txt"], ["a.txt"], []⟩) ∧
      "a.txt" ∈ (CPromoteOutcome.mk ⟨[], [("a.txt", 7)], false⟩
        ["a.txt"] ["a.txt"] []).already_exist_files ∧
      "a.txt" ∈ (CPromoteOutcome.mk ⟨[], [("a.txt", 7)], false⟩
        ["a.txt"] ["a.txt"] []).new_add_files :=
  ⟨rfl, by decide, by decide⟩

/-- C6 (amended): when the flattened staged names are pairwise distinct
and each staged name is present in the cache, stage 2 classifies every
staged name by whether its flattened form already existed at the
destination — already-exists when overwrite is off, with the destination
entry keeping its previous content; overwritten when it is on, with the
staged cache content renamed over the destination entry; newly-added
otherwise, with the staged cache content renamed into the destination —
and the three returned lists are pairwise disjoint. -/
theorem C6_promotion_lists (override : Bool) (fs : CFS) (staged : List String)
    (hnodup : (staged.map _convert_path_to_underscores).Nodup)
    (hcache : ∀ f ∈ staged, f ∈ fs.cacheFiles.map Prod.fst) :
    ∃ o, save_files_in_threads_promoteC override fs staged = .ok o ∧
      o.already_exist_files
        = cond override []
            (staged.filter (fun f =>
              _convert_path_to_underscores f ∈ fs.realFiles.map Prod.fst)) ∧
      o.overwritten_files
        = cond override
            (staged.filter (fun f =>
              _convert_path_to_underscores f ∈ fs.realFiles.map Prod.fst)) [] ∧
      o.new_add_files
        = staged.filter (fun f =>
            _convert_path_to_underscores f ∉ fs.realFiles.map Prod.fst) ∧
      (∀ f ∈ o.already_exist_files,
        lookupFile o.fs.realFiles (_convert_path_to_underscores f)
          = lookupFile fs.realFiles (_convert_path_to_underscores f)) ∧
      (∀ f ∈ o.overwritten_files,
        lookupFile o.fs.realFiles (_convert_path_to_underscores f)
          = lookupFile fs.cacheFiles f) ∧
      (∀ f ∈ o.new_add_files,
        lookupFile o.fs.realFiles (_convert_path_to_underscores f)
          = lookupFile fs.cacheFiles f) ∧
      (∀ x ∈ o.already_exist_files, x ∉ o.new_add_files) ∧
      (∀ x ∈ o.already_exist_files, x ∉ o.overwritten_files) ∧
      (∀ x ∈ o.new_add_files, x ∉ o.overwritten_files) := by
  obtain ⟨fs', heq, hframe, hAE, hOW, hNA⟩ :=
    promoteLoopC_classifies override staged fs [] [] [] hnodup hcache
  have hAE2 : ∀ g ∈ cond override []
      (staged.filter (fun f =>
        _convert_path_to_underscores f ∈ fs.realFiles.map Prod.fst)),
      lookupFile fs'.realFiles (_convert_path_to_underscores g)
        = lookupFile fs.realFiles (_convert_path_to_underscores g) := by
    intro g hg
    cases override with
    | true => simp at hg
    | false =>
        have h2 := List.mem_filter.mp hg
        exact hAE g h2.1 (by simp) (by simpa using h2.2)
  have hOW2 : ∀ g ∈ cond override
      (staged.filter (fun f =>
        _convert_path_to_underscores f ∈ fs.realFiles.map Prod.fst)) [],
      lookupFile fs'.realFiles (_convert_path_to_underscores g)
        = lookupFile fs.cacheFiles g := by
    intro g hg
    cases override with
    | false => simp at hg
    | true =>
        have h2 := List.mem_filter.mp hg
        exact hOW g h2.1 rfl (by simpa using h2.2)
  have hNA2 : ∀ g ∈ staged.filter (fun f =>
      _convert_path_to_underscores f ∉ fs.realFiles.map Prod.fst),
      lookupFile fs'.realFiles (_convert_path_to_underscores g)
        = lookupFile fs.cacheFiles g := by
    intro g hg
    have h2 := List.mem_filter.mp hg
    exact hNA g h2.1 (by simpa using h2.2)
  have hd1 : ∀ x ∈ cond override []
      (staged.filter (fun f =>
        _convert_path_to_underscores f ∈ fs.realFiles.map Prod.fst)),
      x ∉ staged.filter (fun f =>
        _convert_path_to_underscores f ∉ fs.realFiles.map Prod.fst) := by
    intro x hx hmem
    cases override with
    | true => exact absurd hx (List.not_mem_nil x)
    | false =>
        have h2 := of_decide_eq_true (List.mem_filter.mp hx).2
        have h3 := of_decide_eq_true (List.mem_filter.mp hmem).2
        exact h3 h2
  have hd2 : ∀ x ∈ cond override []
      (staged.filter (fun f =>
        _convert_path_to_underscores f ∈ fs.realFiles.map Prod.fst)),
      x ∉ cond override
        (staged.filter (fun f =>
          _convert_path_to_underscores f ∈ fs.realFiles.map Prod.fst)) [] := by
    intro x hx hmem
    cases override with
    | true => exact absurd hx (List.not_mem_nil x)
    | false => exact absurd hmem (List.not_mem_nil x)
  have hd3 : ∀ x ∈ staged.filter (fun f =>
      _convert_path_to_underscores f ∉ fs.realFiles.map Prod.fst),
      x ∉ cond override
        (staged.filter (fun f =>
          _convert_path_to_underscores f ∈ fs.realFiles.map Prod.fst)) [] := by
    intro x hx hmem
    cases override with
    | false => exact absurd hmem (List.not_mem_nil x)
    | true =>
        have h2 := of_decide_eq_true (List.mem_filter.mp hx).2
        have h3 := of_decide_eq_true (List.mem_filter.mp hmem).2
        exact h2 h3
  by_cases hdir : fs'.cacheDirExists = true
  · refine ⟨⟨⟨[], fs'.realFiles, false⟩, _, _, _⟩, ?_,
      rfl, rfl, rfl, hAE2, hOW2, hNA2, hd1, hd2, hd3⟩
    unfold save_files_in_threads_promoteC
    rw [heq]
    simp [hdir]
    exact ⟨rfl, rfl⟩
  · refine ⟨⟨fs', _, _, _⟩, ?_,
      rfl, rfl, rfl, hAE2, hOW2, hNA2, hd1, hd2, hd3⟩
    unfold save_files_in_threads_promoteC
    rw [heq]
    simp [hdir]
    exact ⟨rfl, rfl⟩

/-- Witness for C6: one colliding and one fresh staged name with
overwrite off, over the concrete state `exCfs`. -/
theorem C6_witness :
    ((["a.txt", "c.txt"].map _convert_path_to_underscores).Nodup ∧
      (∀ f ∈ ["a.txt", "c.txt"], f ∈ exCfs.cacheFiles.map Prod.fst)) ∧
      (∃ o, save_files_in_threads_promoteC false exCfs ["a.txt", "c.txt"]
          = .ok o ∧
        o.already_exist_files
          = cond false []
              (["a.txt", "c.txt"].filter (fun f =>
                _convert_path_to_underscores f ∈ exCfs.realFiles.map Prod.fst)) ∧
        o.overwritten_files
          = cond false
              (["a.txt", "c.txt"].filter (fun f =>
                _convert_path_to_underscores f ∈ exCfs.realFiles.map Prod.fst)) [] ∧
        o.new_add_files
          = ["a.txt", "c.txt"].filter (fun f =>
              _convert_path_to_underscores f ∉ exCfs.realFiles.map Prod.fst) ∧
        (∀ f ∈ o.already_exist_files,
          lookupFile o.fs.realFiles (_convert_path_to_underscores f)
            = lookupFile exCfs.realFiles (_convert_path_to_underscores f)) ∧
        (∀ f ∈ o.overwritten_files,
          lookupFile o.fs.realFiles (_convert_path_to_underscores f)
            = lookupFile exCfs.cacheFiles f) ∧
        (∀ f ∈ o.new_add_files,
          lookupFile o.fs.realFiles (_convert_path_to_underscores f)
            = lookupFile exCfs.cacheFiles f) ∧
        (∀ x ∈ o.already_exist_files, x ∉ o.new_add_files) ∧
        (∀ x ∈ o.already_exist_files, x ∉ o.overwritten_files) ∧
        (∀ x ∈ o.new_add_files, x ∉ o.overwritten_files)) :=
  ⟨⟨by decide, by decide⟩,
    C6_promotion_lists false exCfs ["a.txt", "c.txt"] (by decide) (by decide)⟩


/-- A name present after a directory write was present before or is the
written name. -/
theorem mem_dirWrite (dir : List String) (name x : String)
    (h : x ∈ dirWrite dir name) : x ∈ dir ∨ x = name := by
  unfold dirWrite at h
  split at h
  · exact .inl h
  · rcases List.mem_append.mp h with h1 | h1
    · exact .inl h1
    · exact .inr (by simpa using h1)

/-- The extraction loop returns exactly the names of the recognized
members, in order, and grows the cache with recognized member names
only. -/
theorem extract_fold_spec (types : List String) (members : List TarMember) :
    ∀ acc : List String × List String,
      (members.foldl (extractStep types) acc).2
          = acc.2 ++ (members.filter
              (fun m => splitext_ext m.name ∈ types)).map (fun m => m.name) ∧
        ∀ x ∈ (members.foldl (extractStep types) acc).1,
          x ∈ acc.1 ∨ ∃ m ∈ members, splitext_ext m.name ∈ types ∧ x = m.name := by
  induction members with
  | nil => exact fun acc => ⟨by simp, fun x hx => .inl hx⟩
  | cons m ms ih =>
      intro acc
      by_cases hm : splitext_ext m.name ∈ types
      · constructor
        · simp only [List.foldl_cons, extractStep, if_pos hm]
          rw [(ih _).1]
          simp [List.filter_cons, hm]
        · intro x hx
          simp only [List.foldl_cons, extractStep, if_pos hm] at hx
          rcases (ih _).2 x hx with h1 | ⟨m', hm', ht, he⟩
          · rcases mem_dirWrite _ _ _ h1 with h2 | h2
            · exact .inl h2
            · exact .inr ⟨m, List.mem_cons_self _ _, hm, h2⟩
          · exact .inr ⟨m', List.mem_cons_of_mem _ hm', ht, he⟩
      · constructor
        · simp only [List.foldl_cons, extractStep, if_neg hm]
          rw [(ih _).1]
          simp [List.filter_cons, hm]
        · intro x hx
          simp only [List.foldl_cons, extractStep, if_neg hm] at hx
          rcases (ih _).2 x hx with h1 | ⟨m', hm', ht, he⟩
          · exact .inl h1
          · exact .inr ⟨m', List.mem_cons_of_mem _ hm', ht, he⟩

/-- The promotion loop adds to the destination only flattened staged
names. -/
theorem promoteLoop_realFiles_subset (override : Bool) (staged : List String)
    (fs : FS) (ae na ow : List String) (o : PromoteOutcome)
    (h : promoteLoop override fs ae na ow staged = .ok o) :
    ∀ x ∈ o.fs.realFiles, x ∈ fs.realFiles ∨
      ∃ s ∈ staged, x = _convert_path_to_underscores s := by
  induction staged generalizing fs ae na ow with
  | nil =>
      simp only [promoteLoop] at h
      cases h
      exact fun x hx => .inl hx
  | cons f rest ih =>
      simp only [promoteLoop] at h
      intro x hx
      split at h
      · split at h
        · rcases ih _ _ _ _ h x hx with h1 | ⟨s, hs, he⟩
          · exact .inl h1
          · exact .inr ⟨s, List.mem_cons_of_mem _ hs, he⟩
        · split at h
          · rcases ih _ _ _ _ h x hx with h1 | ⟨s, hs, he⟩
            · exact .inl h1
            · exact .inr ⟨s, List.mem_cons_of_mem _ hs, he⟩
          · cases h
      · split at h
        · rcases ih _ _ _ _ h x hx with h1 | ⟨s, hs, he⟩
          · rcases List.mem_append.mp h1 with h2 | h2
            · exact .inl h2
            · exact .inr ⟨f, List.mem_cons_self _ _, by simpa using h2⟩
          · exact .inr ⟨s, List.mem_cons_of_mem _ hs, he⟩
        · cases h

/-- C7: for an archive upload the staging task returns exactly the names
of the recognized-suffix members; an unrecognized member is absent from
the output list, absent from the cache (unless it was already there
before the task ran), and promotion of the output adds to the
destination only flattened output names. -/
theorem C7_archive_member_filtering (file : UpFile) (cache : List String)
    (types : List String) (har : str_endswith file.filename ".tar" = true) :
    (_save_file_to_cache file cache types).2
        = (file.members.filter
            (fun m => splitext_ext m.name ∈ types)).map (fun m => m.name) ∧
      (∀ m ∈ file.members, splitext_ext m.name ∉ types →
        m.name ∉ (_save_file_to_cache file cache types).2) ∧
      (∀ x ∈ (_save_file_to_cache file cache types).1,
        x ∈ cache ∨ ∃ m ∈ file.members, splitext_ext m.name ∈ types ∧ x = m.name) ∧
      (∀ (override : Bool) (fs : FS) (o : PromoteOutcome),
        save_files_in_threads_promote override fs
            (_save_file_to_cache file cache types).2 = .ok o →
        ∀ x ∈ o.fs.realFiles, x ∈ fs.realFiles ∨
          ∃ s ∈ (_save_file_to_cache file cache types).2,
            x = _convert_path_to_underscores s) := by
  have hunf : _save_file_to_cache file cache types
      = (dirRemove
            (file.members.foldl (extractStep types) (dirWrite cache file.filename, [])).1
            file.filename,
         (file.members.foldl (extractStep types) (dirWrite cache file.filename, [])).2) := by
    unfold _save_file_to_cache
    rw [if_pos har]
  have hspec := extract_fold_spec types file.members (dirWrite cache file.filename, [])
  have hout : (_save_file_to_cache file cache types).2
      = (file.members.filter
          (fun m => splitext_ext m.name ∈ types)).map (fun m => m.name) := by
    rw [hunf]
    simpa using hspec.1
  refine ⟨hout, ?_, ?_, ?_⟩
  · intro m hm hrec hmem
    rw [hout] at hmem
    obtain ⟨m', hm', he⟩ := List.mem_map.mp hmem
    have := (List.mem_filter.mp hm').2
    rw [he] at this
    exact hrec (by simpa using this)
  · intro x hx
    rw [hunf] at hx
    have hne : x ≠ file.filename := by
      have := (List.mem_filter.mp hx).2
      simpa [dirRemove] using this
    have hx1 : x ∈ (file.members.foldl (extractStep types)
        (dirWrite cache file.filename, [])).1 := List.mem_of_mem_filter hx
    rcases hspec.2 x hx1 with h1 | ⟨m, hm, ht, he⟩
    · rcases mem_dirWrite _ _ _ h1 with h2 | h2
      · exact .inl h2
      · exact absurd h2 hne
    · exact .inr ⟨m, hm, ht, he⟩
  · intro override fs o hok x hx
    unfold save_files_in_threads_promote at hok
    cases hl : promoteLoop override fs [] [] []
        (_save_file_to_cache file cache types).2 with
    | ok o1 =>
        rw [hl] at hok
        cases hok
        have hreal : ∀ y, y ∈ o1.fs.realFiles →
            y ∈ fs.realFiles ∨ ∃ s ∈ (_save_file_to_cache file cache types).2,
              y = _convert_path_to_underscores s :=
          fun y hy => promoteLoop_realFiles_subset override _ fs [] [] [] o1 hl y hy
        revert hx
        split <;> exact fun hx => hreal x hx
    | error fs1 =>
        rw [hl] at hok
        cases hok

/-- Witness for C7: an archive holding a recognized `b.txt` and an
unrecognized `b.exe` stages exactly `b.txt`. -/
theorem C7_witness :
    str_endswith (UpFile.mk "b.tar" [⟨"b.txt"⟩, ⟨"b.exe"⟩]).filename ".tar" = true ∧
      (_save_file_to_cache (UpFile.mk "b.tar" [⟨"b.txt"⟩, ⟨"b.exe"⟩]) []
          Default_Suport_File_Types).2 = ["b.txt"] :=
  ⟨by decide,
    (C7_archive_member_filtering (UpFile.mk "b.tar" [⟨"b.txt"⟩, ⟨"b.exe"⟩]) []
        Default_Suport_File_Types (by decide)).1.trans (by decide)⟩

end LazyLLM
